import Mathlib

/-!
Verification of the folder-to-git migration engine (`pkg/gitconverter/converter.go`).

The Go code is shallowly embedded as pure Lean functions:

* Go strings are Lean `String`s; the string operations the engine relies on
  (`strings.Split`, `strings.TrimSpace`, `strings.TrimPrefix`, `strings.Contains`,
  `strings.HasPrefix`/`HasSuffix`, `strings.ToLower`) are re-implemented over
  `List Char` (`String.data`), because the verification needs computable,
  kernel-reducible definitions.  Go's Unicode-aware whitespace/lowercasing is
  modelled on its ASCII subset, which covers every character class the engine's
  own conventions produce.
* The filesystem is modelled at the file level: a source folder is a list of
  files (path components + content) in `filepath.Walk` order; the target
  working tree is a list of entries (path components, content, symlink flag).
  Directories are implicit (a directory exists iff some entry lies under it),
  which matches the engine's observable behaviour on file sets: `os.MkdirAll`
  is a no-op in this view, and `os.Remove` of a directory never changes the
  file set.
* The Git repository is modelled as a single linear branch: `commits` lists the
  history newest-first, the branch's hash reference points at the head.  This
  mirrors how `MigrateToGit` itself uses go-git (`worktree.Commit` advances one
  branch; `repo.References` then yields that branch's tip).
* Error sources that live outside the engine (I/O failures in `os.ReadFile`,
  `filepath.Walk`) are modelled as explicit parameters (`Option` content, an
  error flag), faithfully to which branch of the Go code they trigger.
-/

/-! ## String primitives (ASCII models of the `strings` package functions used) -/

/-- Go `unicode.IsSpace` restricted to the ASCII whitespace characters
(`strings.TrimSpace` cutset, ASCII subset). -/
def isSpaceChar (c : Char) : Bool :=
  c = ' ' || c = '\t' || c = '\n' || c = '\r'

/-- Go `strings.TrimSpace` on rune lists (ASCII whitespace). -/
def trimList (l : List Char) : List Char :=
  ((l.dropWhile isSpaceChar).reverse.dropWhile isSpaceChar).reverse

/-- Go `strings.Split(s, sep)` for a one-rune separator: splits at every
occurrence, preserving empty segments; the result is never empty. -/
def splitOnChar (sep : Char) : List Char → List (List Char)
  | [] => [[]]
  | c :: cs =>
    match splitOnChar sep cs with
    | [] => [[]]
    | h :: t => if c = sep then [] :: h :: t else (c :: h) :: t

/-- Go `strings.TrimPrefix`. -/
def trimPrefixList (pre l : List Char) : List Char :=
  if pre.isPrefixOf l then l.drop pre.length else l

/-- Go `strings.Contains`. -/
def containsSub (pat : List Char) : List Char → Bool
  | [] => pat.isEmpty
  | c :: cs => pat.isPrefixOf (c :: cs) || containsSub pat cs

/-- Go `strings.ToLower` on a rune (ASCII range, as used by the key-file check). -/
def lowerChar (c : Char) : Char :=
  if 'A' ≤ c && c ≤ 'Z' then Char.ofNat (c.toNat + 32) else c

/-- Go `strings.ToLower` (ASCII). -/
def lowerList (l : List Char) : List Char := l.map lowerChar

/-- Go `filepath.Base`: last non-empty `/`-separated component, `"."` for an
empty relative path and `"/"` for the root. -/
def baseName (p : String) : String :=
  let comps := (splitOnChar '/' p.data).filter (fun c => !c.isEmpty)
  match comps.getLast? with
  | some c => String.mk c
  | none => if p.data.headD ' ' = '/' then "/" else "."

/-- Go `filepath.Match` for the fixed ignore patterns of `copyFilesAndTrack`:
each pattern is either a literal name or `*` followed by a literal suffix
(base names contain no separator, so `*` matches any run of runes). -/
def matchGlob (pat name : String) : Bool :=
  match pat.data with
  | '*' :: suffixPat => suffixPat.isSuffixOf name.data
  | _ => name == pat

/-! ## Data model (`converter.go` lines 19–39) -/

/-- `FolderInfo` (converter.go:20): one discovered version candidate. -/
structure FolderInfo where
  Path : String
  Version : String
  CreationTime : Int
deriving Repr, DecidableEq, Inhabited

/-- `Config` (converter.go:27): immutable run parameters. -/
structure Config where
  SourceDir : String := ""
  TargetDir : String := ""
  Pattern : String := ""
  ExtractPattern : String := ""
  DryRun : Bool := false
  Author : String := ""
  Email : String := ""
  Verbose : Bool := false
  Append : Bool := false
  AuthorsFile : String := ""
  MessageTemplate : String := ""
deriving Repr, DecidableEq, Inhabited

/-- A file of a source folder, as yielded by `filepath.Walk`: relative path
split into components, and content. -/
structure SrcFile where
  path : List String
  content : String
deriving Repr, DecidableEq, Inhabited

/-- An entry of the target working tree: relative path components, content,
and whether the entry is a symbolic link (symlinked subtrees appear as one
leaf entry, since the engine never follows links). -/
structure WtEntry where
  path : List String
  content : String
  isSym : Bool
deriving Repr, DecidableEq, Inhabited

/-- A commit of the single-branch repository model (message, author signature,
authored timestamp as passed to `worktree.Commit`). -/
structure Commit where
  message : String
  authorName : String
  authorEmail : String
  whenTime : Int
deriving Repr, DecidableEq, Inhabited

/-- The mutable state `MigrateToGit` acts on: target-directory existence,
repository existence (`.git` present), the working tree's file set, and the
branch history (newest first; the head is the branch tip). -/
structure MigState where
  dirExists : Bool
  repoExists : Bool
  worktree : List WtEntry
  commits : List Commit
deriving Repr, DecidableEq, Inhabited

/-- The environment `MigrateToGit` reads but does not own: the source
filesystem (folder path ↦ files in walk order), the date formatter
(`time.Unix(...).Format("2006-01-02 15:04:05")`), the authors file's content
(`none` = `os.ReadFile` fails), and whether the target directory is a hidden
directory under the user's home (the `clearDirectory` home guard). -/
structure MigEnv where
  fs : String → List SrcFile
  formatDate : Int → String
  authorsContent : Option String
  targetUnderHiddenHome : Bool

/-! ## Directory clearing (`clearDirectory`, converter.go:277–365) -/

/-- The protected names of `clearDirectory` (converter.go:279–296). -/
def systemDirs : List String :=
  [".git", ".Trash", ".Trashes", ".config", ".cache", ".local",
   "Library", "Applications", "System", "Users",
   "bin", "etc", "usr", "var", "tmp", "opt"]

/-- An entry survives `clearDirectory`: the recursion keeps, at every level, any
entry whose name is in `systemDirs` (with its whole subtree) and any symbolic
link; everything else is deleted.  On the flat file-set view: a leaf survives
iff it is a symlink or some component of its path is a protected name. -/
def protectedEntry (e : WtEntry) : Bool :=
  e.isSym || e.path.any (fun c => systemDirs.contains c)

/-- `clearDirectory` (converter.go:277) on the file-set view.  The top-level
guards (converter.go:298–315): a directory whose base name is protected, or a
hidden directory directly under the user's home, is not cleared at all.
Per-entry deletion failures are logged and skipped in Go (best-effort); the
model assumes deletions succeed, which is exact on the file-set level. -/
def clearDirectory (dirBase : String) (underHiddenHome : Bool)
    (files : List WtEntry) : List WtEntry :=
  if systemDirs.contains dirBase then files
  else if underHiddenHome then files
  else files.filter protectedEntry

/-! ## Filtered copy (`copyFilesAndTrack`, converter.go:368–438) -/

/-- `ignoreDirs` (converter.go:371). -/
def ignoreDirs : List String :=
  [".git", "__pycache__", "venv", ".venv", "node_modules",
   ".idea", ".vscode", "dist", "build", "env"]

/-- `ignoreFiles` (converter.go:372). -/
def ignoreFiles : List String :=
  [".DS_Store", "*.pyc", "*.pyo", "*.pyd", ".gitignore", ".gitattributes",
   "*.swp", "*.swo", "*.log", "*.bak"]

/-- A source file is filtered out by the walk (converter.go:390–409): a
directory on its path matches `ignoreDirs` (the walk skips that subtree), or
its base name matches one of the `ignoreFiles` globs. -/
def srcFileIgnored (f : SrcFile) : Bool :=
  f.path.dropLast.any (fun d => ignoreDirs.contains d) ||
  ignoreFiles.any (fun pat => matchGlob pat (f.path.getLastD ""))

/-- `os.Stat(targetPath)` succeeding: some entry already occupies the path. -/
def pathExists (wt : List WtEntry) (p : List String) : Bool :=
  wt.any (fun e => e.path == p)

/-- `copyFile` (converter.go:447) at the file-set level: `os.Create` truncates
and rewrites the entry at the path, or creates a fresh one. -/
def wtWrite (wt : List WtEntry) (p : List String) (c : String) : List WtEntry :=
  if pathExists wt p then
    wt.map (fun e => if e.path == p then { e with content := c } else e)
  else wt ++ [⟨p, c, false⟩]

/-- Accumulator of `copyFilesAndTrack`: copied-file count, target paths of the
newly copied files, and the working tree. -/
structure CopyResult where
  fileCount : Nat
  newFiles : List (List String)
  worktree : List WtEntry
deriving Repr, DecidableEq

/-- One step of the `filepath.Walk` callback of `copyFilesAndTrack`
(converter.go:374–435): skip ignored files; in append mode skip files whose
target path already exists; otherwise copy and track. -/
def copyStep (appendMode : Bool) (acc : CopyResult) (f : SrcFile) : CopyResult :=
  if srcFileIgnored f then acc
  else if appendMode && pathExists acc.worktree f.path then acc
  else
    { fileCount := acc.fileCount + 1,
      newFiles := acc.newFiles ++ [f.path],
      worktree := wtWrite acc.worktree f.path f.content }

/-- `copyFilesAndTrack` (converter.go:368): walk the source files in order,
copying those that pass the filters (and, in append mode, do not already
exist), returning the count, the new files and the resulting tree. -/
def copyFilesAndTrack (srcFiles : List SrcFile) (dstWt : List WtEntry)
    (appendMode : Bool) : CopyResult :=
  srcFiles.foldl (copyStep appendMode) ⟨0, [], dstWt⟩

/-! ## Author resolution (`getAuthorInfo`, converter.go:473–497) -/

/-- The line loop of `getAuthorInfo` (converter.go:484–494): trim each line,
skip blank and `#`-prefixed lines, split on `:`; the first line with at least
3 fields whose first field equals the version yields `(parts[1], parts[2])`;
otherwise `("", "")`. -/
def lookupAuthorLines (version : String) : List (List Char) → String × String
  | [] => ("", "")
  | l :: rest =>
    let line := trimList l
    if line.isEmpty || line.headD ' ' = '#' then lookupAuthorLines version rest
    else
      let parts := splitOnChar ':' line
      if parts.length ≥ 3 && String.mk (parts.headD []) == version then
        (String.mk (parts.getD 1 []), String.mk (parts.getD 2 []))
      else lookupAuthorLines version rest

/-- `getAuthorInfo` (converter.go:473).  `none` models the `os.ReadFile` error
return; the Go non-error returns carry `err = nil`. -/
def getAuthorInfo (version authorsFile : String) (content : Option String) :
    Option (String × String) :=
  if authorsFile == "" then some ("", "")
  else
    match content with
    | none => none
    | some data => some (lookupAuthorLines version (splitOnChar '\n' data.data))

/-- The author-resolution step of `MigrateToGit` (converter.go:219–227):
use the authors-file pair only when the lookup did not error and both name and
email are nonempty; otherwise fall back to `config.Author`/`config.Email`. -/
def resolveAuthor (config : Config) (version : String)
    (content : Option String) : String × String :=
  if config.AuthorsFile != "" then
    match getAuthorInfo version config.AuthorsFile content with
    | some (name, email) =>
      if name != "" && email != "" then (name, email)
      else (config.Author, config.Email)
    | none => (config.Author, config.Email)
  else (config.Author, config.Email)

/-! ## Commit messages (converter.go:229–242) and the existing-version scan
(converter.go:158–184) -/

/-- The default commit-message format (converter.go:238–241):
`"Version <version>: <folderBase> (created: <date>)"`. -/
def defaultCommitMessage (version folderBase date : String) : String :=
  "Version " ++ version ++ ": " ++ folderBase ++ " (created: " ++ date ++ ")"

/-- The message-template branch (converter.go:231–236): placeholder
substitution via `strings.ReplaceAll`. -/
def templateCommitMessage (template : String) (folder : FolderInfo)
    (fileCount : Nat) (authorName date : String) : String :=
  ((((template.replace "{version}" folder.Version).replace
      "{folder}" (baseName folder.Path)).replace
      "{date}" date).replace
      "{files}" (toString fileCount)).replace "{author}" authorName

/-- The commit-message resolution of `MigrateToGit` (converter.go:230–242). -/
def resolveMessage (config : Config) (folder : FolderInfo) (fileCount : Nat)
    (authorName : String) (formatDate : Int → String) : String :=
  if config.MessageTemplate != "" then
    templateCommitMessage config.MessageTemplate folder fileCount authorName
      (formatDate folder.CreationTime)
  else
    defaultCommitMessage folder.Version (baseName folder.Path)
      (formatDate folder.CreationTime)

/-- The per-commit scan of the existing-version index (converter.go:170–177):
if the message contains `"Version"`, split on `":"`, take the first part,
strip the `"Version"` prefix and trim; otherwise contribute nothing.
(`len(parts) > 0` always holds: a split is never empty.) -/
def scanCommitVersion (msg : String) : Option String :=
  if containsSub "Version".data msg.data then
    let parts := splitOnChar ':' msg.data
    some (String.mk (trimList (trimPrefixList "Version".data (parts.headD []))))
  else none

/-- The existing-version index (converter.go:158–184): `repo.References` is
iterated and the commit object *at each hash reference* is scanned — in the
single-branch model, only the branch tip.  Ancestor commits are not visited. -/
def buildExistingVersions (commits : List Commit) : List String :=
  match commits with
  | [] => []
  | tip :: _ =>
    match scanCommitVersion tip.message with
    | some v => [v]
    | none => []

/-! ## The migration loop (`MigrateToGit`, converter.go:119–274) -/

/-- The body of the folder loop (converter.go:192–271): skip index-listed
versions in append mode; clear the target only outside append mode; copy; skip
commit creation when zero files were copied; otherwise resolve author and
message and commit with the folder's creation time.  Staging (converter.go:
244–255) adds the tracked new files and does not change the file set. -/
def processFolder (config : Config) (env : MigEnv)
    (existingVersions : List String) (st : MigState) (folder : FolderInfo) :
    MigState :=
  if config.Append && existingVersions.contains folder.Version then st
  else
    let wt1 :=
      if !config.Append then
        clearDirectory (baseName config.TargetDir) env.targetUnderHiddenHome
          st.worktree
      else st.worktree
    let res := copyFilesAndTrack (env.fs folder.Path) wt1 config.Append
    if res.fileCount == 0 then { st with worktree := res.worktree }
    else
      let author := resolveAuthor config folder.Version env.authorsContent
      let commitMsg :=
        resolveMessage config folder res.fileCount author.1 env.formatDate
      { st with
          worktree := res.worktree,
          commits := ⟨commitMsg, author.1, author.2, folder.CreationTime⟩ ::
            st.commits }

/-- The index construction plus folder loop (converter.go:157–271): the index
is built once, from the repository state at the start of the run, and is not
updated as commits are created. -/
def migrateLoop (config : Config) (env : MigEnv) (folders : List FolderInfo)
    (st : MigState) : MigState :=
  let existingVersions :=
    if config.Append then buildExistingVersions st.commits else []
  folders.foldl (processFolder config env existingVersions) st

/-- `MigrateToGit` (converter.go:119): dry-run guard, target-directory
creation, repository init/open/abort, then the loop.  The returned pair is the
final state plus the Go error (`none` = `nil`). -/
def MigrateToGit (config : Config) (env : MigEnv) (folders : List FolderInfo)
    (st : MigState) : MigState × Option String :=
  if config.DryRun then (st, none)
  else
    let st1 : MigState := { st with dirExists := true }
    if !st1.repoExists && !config.Append then
      (migrateLoop config env folders { st1 with repoExists := true }, none)
    else if config.Append && !st1.repoExists then
      (st1, some "append mode requested but no repository exists at target")
    else
      (migrateLoop config env folders st1, none)

/-! ## Timestamp inference (`getFolderCreationTime`, converter.go:500–563) -/

/-- `keyFilePatterns` (converter.go:502–507). -/
def keyFilePatterns : List String :=
  ["version.py", "version.txt", "VERSION",
   "main.py", "app.py", "bot.py", "config.py",
   "requirements.txt", "setup.py",
   "Dockerfile", "docker-compose.yml"]

/-- A file of the walked folder: directory components, base name, and
modification time (Unix seconds). -/
structure WalkFile where
  dirs : List String
  base : String
  modTime : Int
deriving Repr, DecidableEq, Inhabited

/-- The directory skip of the walk (converter.go:518–525): hidden directories
and virtual-env names are not descended into. -/
def isSkippedWalkDir (name : String) : Bool :=
  name.data.headD ' ' = '.' || name == "__pycache__" ||
  name == "venv" || name == "env" || name == ".venv"

/-- The service-file skip (converter.go:532–535): hidden base names and
compiled bytecode. -/
def isServiceFile (base : String) : Bool :=
  base.data.headD ' ' = '.' || ".pyc".data.isSuffixOf base.data

/-- The key-file check (converter.go:541–546): the lowered base name contains
one of the lowered key patterns. -/
def isKeyFile (base : String) : Bool :=
  keyFilePatterns.any
    (fun pat => containsSub (lowerList pat.data) (lowerList base.data))

/-- The timestamp collection of the walk callback (converter.go:512–550),
over the files in walk order with the `processedFiles` counter: files inside
skipped directories are never visited; once 500 files have been processed no
further file contributes (the callback returns `SkipDir` before processing);
service files contribute nothing and are not counted; every other file
contributes its modification time, twice if it is a key file. -/
def collectTimes : List WalkFile → Nat → List Int
  | [], _ => []
  | f :: rest, processed =>
    if f.dirs.any isSkippedWalkDir then collectTimes rest processed
    else if 500 ≤ processed then collectTimes rest processed
    else if isServiceFile f.base then collectTimes rest processed
    else
      f.modTime ::
        ((if isKeyFile f.base then [f.modTime] else []) ++
          collectTimes rest (processed + 1))

/-- `getFolderCreationTime` (converter.go:500): current time when the walk
reported an error or no timestamp was collected, otherwise the element at
index `len/2` of the sorted collected timestamps.  (In the Go code the walk
callback swallows every error, so `walkFailed` can in fact never be true;
the parameter models the `err != nil` branch at converter.go:552.) -/
def getFolderCreationTime (files : List WalkFile) (walkFailed : Bool)
    (now : Int) : Int :=
  let fileTimes := collectTimes files 0
  if walkFailed || fileTimes.isEmpty then now
  else (List.insertionSort (· ≤ ·) fileTimes).getD (fileTimes.length / 2) 0

/-! ## Version discovery (`FindVersionedFolders`, converter.go:42–116) -/

/-- One `filepath.Glob` match as seen by the discovery loop: its path, whether
`os.Stat` succeeded and reported a directory, and the folder's files (input to
the timestamp heuristic).  Compilation of the extraction pattern and the glob
expansion happen before this loop and belong to the regexp/filepath libraries,
outside the embedding; `extract` below is the compiled pattern's `FindString`
(returning `""` when there is no match). -/
structure Candidate where
  path : String
  statOk : Bool
  isDir : Bool
  files : List WalkFile
deriving Repr, Inhabited

/-- The discovery loop (converter.go:61–95): skip non-directories and folders
with no version match; otherwise record path, version and inferred creation
time. -/
def discoveredFolders (extract : String → String) (now : Int)
    (globMatches : List Candidate) : List FolderInfo :=
  globMatches.foldl
    (fun acc c =>
      if !c.statOk || !c.isDir then acc
      else if extract (baseName c.path) == "" then acc
      else acc ++
        [⟨c.path, extract (baseName c.path),
          getFolderCreationTime c.files false now⟩])
    []

/-- The ordering used by the discovery sort (converter.go:98–100):
non-decreasing creation time. -/
def folderLE (a b : FolderInfo) : Prop := a.CreationTime ≤ b.CreationTime

instance : DecidableRel folderLE := fun a b => Int.decLe a.CreationTime b.CreationTime

instance : IsTotal FolderInfo folderLE := ⟨fun a b => Int.le_total a.CreationTime b.CreationTime⟩

instance : IsTrans FolderInfo folderLE := ⟨fun _ _ _ => Int.le_trans⟩

/-- `FindVersionedFolders` (converter.go:42): discover, sort by creation time
(`sort.Slice` with a `<` comparator; the model uses a concrete stable sort —
any sort produces a `folderLE`-sorted permutation), and fail exactly when
nothing was discovered (converter.go:102–104). -/
def FindVersionedFolders (extract : String → String) (now : Int)
    (globMatches : List Candidate) : Option (List FolderInfo) :=
  let folders := List.insertionSort folderLE (discoveredFolders extract now globMatches)
  if folders.isEmpty then none else some folders

/-! ## Spec-side characterization of the authors-file lookup (§6 of the spec) -/

/-- The spec's description of the authors-file lookup, stated directly with
`List.find?`: the first line that, after trimming, is non-blank, not
`#`-prefixed, has at least 3 colon-separated fields, and whose first field
equals the version.  Used to compare `lookupAuthorLines` against the spec. -/
def authorLineSpec (version : String) (data : String) :
    Option (String × String) :=
  (((splitOnChar '\n' data.data).map trimList).find?
      (fun line =>
        !line.isEmpty && !(line.headD ' ' = '#') &&
        ((splitOnChar ':' line).length ≥ 3 &&
          String.mk ((splitOnChar ':' line).headD []) == version))).map
    (fun line =>
      (String.mk ((splitOnChar ':' line).getD 1 []),
       String.mk ((splitOnChar ':' line).getD 2 [])))

/-! ## Lemmas about the string primitives -/

theorem splitOnChar_ne_nil (sep : Char) (l : List Char) :
    splitOnChar sep l ≠ [] := by
  cases l with
  | nil => simp [splitOnChar]
  | cons c cs =>
    simp only [splitOnChar]
    cases h : splitOnChar sep cs with
    | nil => simp
    | cons h t =>
      by_cases hc : c = sep <;> simp [hc]

theorem splitOnChar_head_of_not_mem (sep : Char) (pre rest : List Char)
    (h : sep ∉ pre) :
    (splitOnChar sep (pre ++ sep :: rest)).headD [] = pre := by
  induction pre with
  | nil =>
    simp only [List.nil_append, splitOnChar]
    cases hsp : splitOnChar sep rest with
    | nil => exact absurd hsp (splitOnChar_ne_nil sep rest)
    | cons hd tl => simp
  | cons c cs ih =>
    have hc : ¬ c = sep := fun he => h (he ▸ List.mem_cons_self c cs)
    have hcs : sep ∉ cs := fun hm => h (List.mem_cons_of_mem c hm)
    simp only [List.cons_append, splitOnChar]
    cases hsp : splitOnChar sep (cs ++ sep :: rest) with
    | nil => exact absurd hsp (splitOnChar_ne_nil sep _)
    | cons hd tl =>
      have := ih hcs
      rw [hsp] at this
      simp only [List.headD_cons] at this
      simp [hc, this]

theorem containsSub_of_isPrefixOf (pat l : List Char)
    (h : pat.isPrefixOf l = true) : containsSub pat l = true := by
  cases l with
  | nil =>
    cases pat with
    | nil => simp [containsSub]
    | cons p ps => simp [List.isPrefixOf] at h
  | cons c cs => simp [containsSub, h]

theorem trimList_cons_space (l : List Char) :
    trimList (' ' :: l) = trimList l := by
  simp [trimList, List.dropWhile_cons, isSpaceChar]

theorem mk_data_eq (s : String) : String.mk s.data = s := by
  cases s
  rfl

/-! ## C2: round-trip of the default commit-message convention -/

/-- Core list-level round-trip lemma for the default message format. -/
theorem scanCommitVersion_roundtrip_list (msg : String) (v rest : List Char)
    (hd : msg.data = ['V','e','r','s','i','o','n',' '] ++ v ++ ':' :: rest)
    (hcolon : ':' ∉ v) (htrim : trimList v = v) :
    scanCommitVersion msg = some (String.mk v) := by
  have hV7 : "Version".data = ['V','e','r','s','i','o','n'] := by decide
  have hcontains : containsSub "Version".data msg.data = true := by
    rw [hd, hV7]
    apply containsSub_of_isPrefixOf
    rw [List.isPrefixOf_iff_prefix]
    exact ⟨' ' :: v ++ ':' :: rest, by simp⟩
  have hpre : ':' ∉ ['V','e','r','s','i','o','n',' '] ++ v := by
    intro hm
    rcases List.mem_append.mp hm with hm1 | hm2
    · revert hm1; decide
    · exact hcolon hm2
  have hhead : (splitOnChar ':' msg.data).headD []
      = ['V','e','r','s','i','o','n',' '] ++ v := by
    rw [hd, List.append_assoc]
    exact splitOnChar_head_of_not_mem ':' _ _ hpre
  simp only [scanCommitVersion, hcontains, if_true, hhead, hV7]
  have hsplit : (['V','e','r','s','i','o','n',' '] ++ v)
      = ['V','e','r','s','i','o','n'] ++ (' ' :: v) := by simp
  rw [hsplit]
  have hpref : List.isPrefixOf ['V','e','r','s','i','o','n']
      (['V','e','r','s','i','o','n'] ++ (' ' :: v)) = true := by
    rw [List.isPrefixOf_iff_prefix]
    exact List.prefix_append _ _
  simp only [trimPrefixList, hpref, if_true, List.drop_left]
  rw [trimList_cons_space, htrim]

/-- C2 (amended): for every version token that contains no colon and carries
no leading or trailing whitespace, a commit message produced by the default
formatter, when parsed by the existing-version scan (split on `:`, take the
first part, strip the `Version` prefix, trim), yields back exactly the
version token.  (The counterexample shows the unrestricted claim fails for
tokens containing a colon.) -/
theorem roundtrip_default_message (version folderBase date : String)
    (hcolon : ':' ∉ version.data)
    (htrim : trimList version.data = version.data) :
    scanCommitVersion (defaultCommitMessage version folderBase date) =
      some version := by
  have hd : (defaultCommitMessage version folderBase date).data
      = ['V','e','r','s','i','o','n',' '] ++ version.data ++
        ':' :: (' ' :: (folderBase.data ++
          [' ','(','c','r','e','a','t','e','d',':',' '] ++ date.data ++ [')'])) := by
    simp [defaultCommitMessage, String.data_append]
  rw [scanCommitVersion_roundtrip_list _ version.data _ hd hcolon htrim, mk_data_eq]

/-- C2 counterexample: for the version token `"1:2"` (which contains a colon)
the round-trip fails: the scan recovers `"1"`, not `"1:2"`. -/
theorem roundtrip_default_message_cex :
    scanCommitVersion (defaultCommitMessage "1:2" "f" "d") = some "1" ∧
    ("1" : String) ≠ "1:2" := by
  constructor
  · decide
  · decide

/-- C2 witness: the amended round-trip at a concrete token. -/
theorem roundtrip_default_message_witness :
    scanCommitVersion
      (defaultCommitMessage "1.0" "project_v1.0" "2024-01-02 10:00:00") =
      some "1.0" :=
  roundtrip_default_message "1.0" "project_v1.0" "2024-01-02 10:00:00"
    (by decide) (by decide)

/-! ## Lemmas about the working-tree operations -/

theorem pathExists_iff (wt : List WtEntry) (p : List String) :
    pathExists wt p = true ↔ ∃ e ∈ wt, e.path = p := by
  simp [pathExists, List.any_eq_true, beq_iff_eq]

theorem pathExists_append (a b : List WtEntry) (p : List String) :
    pathExists (a ++ b) p = (pathExists a p || pathExists b p) := by
  simp [pathExists, List.any_append]

theorem wtWrite_pathExists (wt : List WtEntry) (p : List String) (c : String)
    (q : List String) :
    (pathExists (wtWrite wt p c) q = true) ↔ (q = p ∨ pathExists wt q = true) := by
  unfold wtWrite
  by_cases h : pathExists wt p = true
  · simp only [h, if_true]
    have hmap : pathExists
        (wt.map (fun e => if e.path == p then { e with content := c } else e)) q
        = pathExists wt q := by
      simp only [pathExists, List.any_map]
      have hfun : ((fun e => e.path == q) ∘
            (fun e : WtEntry => if e.path == p then { e with content := c } else e))
          = (fun e : WtEntry => e.path == q) := by
        funext e
        by_cases he : e.path == p <;> simp [Function.comp, he]
      rw [hfun]
    rw [hmap]
    constructor
    · exact Or.inr
    · rintro (rfl | hq)
      · exact h
      · exact hq
  · have h0 : pathExists wt p = false := by simpa using h
    simp only [h0, Bool.false_eq_true, if_false]
    rw [pathExists_append]
    simp only [Bool.or_eq_true]
    constructor
    · rintro (hq | hq)
      · exact Or.inr hq
      · left
        simp only [pathExists, List.any_cons, List.any_nil, Bool.or_false,
          beq_iff_eq] at hq
        exact hq.symm
    · rintro (rfl | hq)
      · right
        simp [pathExists]
      · exact Or.inl hq

theorem clearDirectory_pathExists (dirBase : String) (wt : List WtEntry)
    (p : List String) (h1 : systemDirs.contains dirBase = false) :
    pathExists (clearDirectory dirBase false wt) p = true ↔
      ∃ e ∈ wt, e.path = p ∧ protectedEntry e = true := by
  simp only [clearDirectory, h1, Bool.false_eq_true, if_false]
  rw [pathExists_iff]
  constructor
  · rintro ⟨e, he, rfl⟩
    have := List.mem_filter.mp he
    exact ⟨e, this.1, rfl, this.2⟩
  · rintro ⟨e, he, rfl, hp⟩
    exact ⟨e, List.mem_filter.mpr ⟨he, hp⟩, rfl⟩

/-! ## Lemmas about `copyFilesAndTrack` -/

theorem copy_foldl_pathExists (srcFiles : List SrcFile) :
    ∀ (acc : CopyResult) (p : List String),
      (pathExists (List.foldl (copyStep false) acc srcFiles).worktree p = true) ↔
        ((∃ sf ∈ srcFiles, srcFileIgnored sf = false ∧ sf.path = p) ∨
          pathExists acc.worktree p = true) := by
  induction srcFiles with
  | nil => simp
  | cons f fs ih =>
    intro acc p
    rw [List.foldl_cons, ih]
    by_cases hig : srcFileIgnored f = true
    · have hstep : copyStep false acc f = acc := by simp [copyStep, hig]
      rw [hstep]
      simp only [List.mem_cons]
      constructor
      · rintro (⟨sf, hm, hs⟩ | hq)
        · exact Or.inl ⟨sf, Or.inr hm, hs⟩
        · exact Or.inr hq
      · rintro (⟨sf, rfl | hm, hs⟩ | hq)
        · rw [hig] at hs; exact absurd hs.1 (by simp)
        · exact Or.inl ⟨sf, hm, hs⟩
        · exact Or.inr hq
    · have hig0 : srcFileIgnored f = false := by simpa using hig
      have hstep : copyStep false acc f =
          ⟨acc.fileCount + 1, acc.newFiles ++ [f.path],
            wtWrite acc.worktree f.path f.content⟩ := by
        simp [copyStep, hig0]
      rw [hstep]
      simp only [List.mem_cons]
      rw [wtWrite_pathExists]
      constructor
      · rintro (⟨sf, hm, hs⟩ | rfl | hq)
        · exact Or.inl ⟨sf, Or.inr hm, hs⟩
        · exact Or.inl ⟨f, Or.inl rfl, hig0, rfl⟩
        · exact Or.inr hq
      · rintro (⟨sf, rfl | hm, hs⟩ | hq)
        · exact Or.inr (Or.inl hs.2.symm)
        · exact Or.inl ⟨sf, hm, hs⟩
        · exact Or.inr (Or.inr hq)

theorem copy_foldl_append_shape (srcFiles : List SrcFile) :
    ∀ acc : CopyResult, ∃ added,
      (List.foldl (copyStep true) acc srcFiles).worktree = acc.worktree ++ added ∧
      ∀ e ∈ added, pathExists acc.worktree e.path = false := by
  induction srcFiles with
  | nil => exact fun acc => ⟨[], by simp, by simp⟩
  | cons f fs ih =>
    intro acc
    rw [List.foldl_cons]
    by_cases hig : srcFileIgnored f = true
    · have hstep : copyStep true acc f = acc := by simp [copyStep, hig]
      rw [hstep]; exact ih acc
    · have hig0 : srcFileIgnored f = false := by simpa using hig
      by_cases hex : pathExists acc.worktree f.path = true
      · have hstep : copyStep true acc f = acc := by simp [copyStep, hig0, hex]
        rw [hstep]; exact ih acc
      · have hex0 : pathExists acc.worktree f.path = false := by simpa using hex
        have hstep : copyStep true acc f =
            ⟨acc.fileCount + 1, acc.newFiles ++ [f.path],
              acc.worktree ++ [⟨f.path, f.content, false⟩]⟩ := by
          simp [copyStep, hig0, hex0, wtWrite]
        rw [hstep]
        obtain ⟨added, hw, hfresh⟩ :=
          ih ⟨acc.fileCount + 1, acc.newFiles ++ [f.path],
            acc.worktree ++ [⟨f.path, f.content, false⟩]⟩
        refine ⟨⟨f.path, f.content, false⟩ :: added, ?_, ?_⟩
        · simpa [List.append_assoc] using hw
        · intro e he
          rcases List.mem_cons.mp he with rfl | he2
          · exact hex0
          · have hfr := hfresh e he2
            rw [pathExists_append] at hfr
            exact (Bool.or_eq_false_iff.mp hfr).1

theorem copy_foldl_monotone (srcFiles : List SrcFile) (acc : CopyResult)
    (p : List String) (h : pathExists acc.worktree p = true) :
    pathExists (List.foldl (copyStep true) acc srcFiles).worktree p = true := by
  obtain ⟨added, hw, _⟩ := copy_foldl_append_shape srcFiles acc
  rw [hw, pathExists_append, h]
  rfl

theorem copy_foldl_ensures (srcFiles : List SrcFile) :
    ∀ acc : CopyResult, ∀ sf ∈ srcFiles, srcFileIgnored sf = false →
      pathExists (List.foldl (copyStep true) acc srcFiles).worktree sf.path = true := by
  induction srcFiles with
  | nil => simp
  | cons f fs ih =>
    intro acc sf hmem hig
    rw [List.foldl_cons]
    rcases List.mem_cons.mp hmem with rfl | hmem2
    · apply copy_foldl_monotone
      by_cases hex : pathExists acc.worktree sf.path = true
      · have hstep : copyStep true acc sf = acc := by simp [copyStep, hig, hex]
        rw [hstep]; exact hex
      · have hex0 : pathExists acc.worktree sf.path = false := by simpa using hex
        have hstep : copyStep true acc sf =
            ⟨acc.fileCount + 1, acc.newFiles ++ [sf.path],
              acc.worktree ++ [⟨sf.path, sf.content, false⟩]⟩ := by
          simp [copyStep, hig, hex0, wtWrite]
        rw [hstep]
        simp [pathExists_append, pathExists]
    · exact ih (copyStep true acc f) sf hmem2 hig

theorem copy_foldl_fixpoint (srcFiles : List SrcFile) :
    ∀ acc : CopyResult,
      (∀ sf ∈ srcFiles, srcFileIgnored sf = false →
        pathExists acc.worktree sf.path = true) →
      List.foldl (copyStep true) acc srcFiles = acc := by
  induction srcFiles with
  | nil => intro acc _; rfl
  | cons f fs ih =>
    intro acc h
    rw [List.foldl_cons]
    have hstep : copyStep true acc f = acc := by
      by_cases hig : srcFileIgnored f = true
      · simp [copyStep, hig]
      · have hig0 : srcFileIgnored f = false := by simpa using hig
        have hex := h f (List.mem_cons_self f fs) hig0
        simp [copyStep, hig0, hex]
    rw [hstep]
    exact ih acc (fun sf hm hig => h sf (List.mem_cons_of_mem f hm) hig)

/-! ## Lemmas about `processFolder` and the migration loop -/

theorem processFolder_skip (config : Config) (env : MigEnv)
    (existing : List String) (st : MigState) (folder : FolderInfo)
    (hA : config.Append = true)
    (hc : existing.contains folder.Version = true) :
    processFolder config env existing st folder = st := by
  have hc2 : folder.Version ∈ existing := by simpa using hc
  simp [processFolder, hA, hc2]

theorem processFolder_worktree_eq (config : Config) (env : MigEnv)
    (existing : List String) (st : MigState) (folder : FolderInfo)
    (hA : config.Append = true)
    (hc : existing.contains folder.Version = false) :
    (processFolder config env existing st folder).worktree =
      (copyFilesAndTrack (env.fs folder.Path) st.worktree true).worktree := by
  rw [processFolder]
  simp only [hA, hc, Bool.and_false, Bool.false_eq_true, if_false,
    Bool.not_true, Bool.false_eq_true]
  by_cases hz :
      (copyFilesAndTrack (env.fs folder.Path) st.worktree true).fileCount = 0 <;>
    simp [hz]

theorem processFolder_flags (config : Config) (env : MigEnv)
    (existing : List String) (st : MigState) (folder : FolderInfo) :
    (processFolder config env existing st folder).dirExists = st.dirExists ∧
    (processFolder config env existing st folder).repoExists = st.repoExists := by
  rw [processFolder]
  split
  · exact ⟨rfl, rfl⟩
  · split <;> dsimp only <;> split <;> exact ⟨rfl, rfl⟩

theorem processFolder_append_worktree (config : Config) (env : MigEnv)
    (existing : List String) (st : MigState) (folder : FolderInfo)
    (hA : config.Append = true) :
    ∃ added, (processFolder config env existing st folder).worktree =
        st.worktree ++ added ∧
      ∀ e ∈ added, pathExists st.worktree e.path = false := by
  by_cases hc : existing.contains folder.Version = true
  · rw [processFolder_skip config env existing st folder hA hc]
    exact ⟨[], by simp, by simp⟩
  · have hc0 : existing.contains folder.Version = false := by simpa using hc
    rw [processFolder_worktree_eq config env existing st folder hA hc0]
    exact copy_foldl_append_shape (env.fs folder.Path) ⟨0, [], st.worktree⟩

theorem migrate_foldl_append_shape (config : Config) (env : MigEnv)
    (existing : List String) (folders : List FolderInfo)
    (hA : config.Append = true) :
    ∀ st : MigState, ∃ added,
      (List.foldl (processFolder config env existing) st folders).worktree =
        st.worktree ++ added ∧
      ∀ e ∈ added, pathExists st.worktree e.path = false := by
  induction folders with
  | nil => exact fun st => ⟨[], by simp, by simp⟩
  | cons f fs ih =>
    intro st
    rw [List.foldl_cons]
    obtain ⟨a1, hw1, hf1⟩ :=
      processFolder_append_worktree config env existing st f hA
    obtain ⟨a2, hw2, hf2⟩ := ih (processFolder config env existing st f)
    refine ⟨a1 ++ a2, ?_, ?_⟩
    · rw [hw2, hw1, List.append_assoc]
    · intro e he
      rcases List.mem_append.mp he with he1 | he2
      · exact hf1 e he1
      · have := hf2 e he2
        rw [hw1, pathExists_append] at this
        exact (Bool.or_eq_false_iff.mp this).1

theorem migrate_foldl_flags (config : Config) (env : MigEnv)
    (existing : List String) (folders : List FolderInfo) :
    ∀ st : MigState,
      (List.foldl (processFolder config env existing) st folders).dirExists =
        st.dirExists ∧
      (List.foldl (processFolder config env existing) st folders).repoExists =
        st.repoExists := by
  induction folders with
  | nil => exact fun st => ⟨rfl, rfl⟩
  | cons f fs ih =>
    intro st
    rw [List.foldl_cons]
    obtain ⟨h1, h2⟩ := ih (processFolder config env existing st f)
    obtain ⟨h3, h4⟩ := processFolder_flags config env existing st f
    exact ⟨h1.trans h3, h2.trans h4⟩

theorem migrate_foldl_monotone (config : Config) (env : MigEnv)
    (existing : List String) (folders : List FolderInfo) (st : MigState)
    (p : List String) (hA : config.Append = true)
    (h : pathExists st.worktree p = true) :
    pathExists
      (List.foldl (processFolder config env existing) st folders).worktree p =
      true := by
  obtain ⟨added, hw, _⟩ :=
    migrate_foldl_append_shape config env existing folders hA st
  rw [hw, pathExists_append, h]
  rfl

theorem migrate_foldl_ensures (config : Config) (env : MigEnv)
    (existing : List String) (folders : List FolderInfo)
    (hA : config.Append = true)
    (hE : ∀ f ∈ folders, existing.contains f.Version = false) :
    ∀ st : MigState, ∀ f ∈ folders, ∀ sf ∈ env.fs f.Path,
      srcFileIgnored sf = false →
      pathExists
        (List.foldl (processFolder config env existing) st folders).worktree
        sf.path = true := by
  induction folders with
  | nil => simp
  | cons f0 fs ih =>
    intro st f hmem sf hsf hig
    rw [List.foldl_cons]
    rcases List.mem_cons.mp hmem with rfl | hmem2
    · apply migrate_foldl_monotone config env existing fs _ _ hA
      rw [processFolder_worktree_eq config env existing st f hA (hE f hmem)]
      exact copy_foldl_ensures (env.fs f.Path) ⟨0, [], st.worktree⟩ sf hsf hig
    · exact ih (fun g hg => hE g (List.mem_cons_of_mem f0 hg))
        (processFolder config env existing st f0) f hmem2 sf hsf hig

theorem migrate_foldl_fixpoint (config : Config) (env : MigEnv)
    (existing : List String) (folders : List FolderInfo)
    (hA : config.Append = true) :
    ∀ st : MigState,
      (∀ f ∈ folders, ∀ sf ∈ env.fs f.Path, srcFileIgnored sf = false →
        pathExists st.worktree sf.path = true) →
      List.foldl (processFolder config env existing) st folders = st := by
  induction folders with
  | nil => exact fun st _ => rfl
  | cons f fs ih =>
    intro st h
    rw [List.foldl_cons]
    have hstep : processFolder config env existing st f = st := by
      by_cases hc : existing.contains f.Version = true
      · exact processFolder_skip config env existing st f hA hc
      · have hc0 : existing.contains f.Version = false := by simpa using hc
        have hcopy : List.foldl (copyStep true) ⟨0, [], st.worktree⟩
            (env.fs f.Path) = ⟨0, [], st.worktree⟩ :=
          copy_foldl_fixpoint (env.fs f.Path) ⟨0, [], st.worktree⟩
            (fun sf hm hig => h f (List.mem_cons_self f fs) sf hm hig)
        rw [processFolder]
        simp only [hA, hc0, Bool.and_false, Bool.false_eq_true, if_false,
          Bool.not_true]
        rw [show copyFilesAndTrack (env.fs f.Path) st.worktree true
            = ⟨0, [], st.worktree⟩ from hcopy]
        simp
    rw [hstep]
    exact ih st (fun g hg sf hm hig => h g (List.mem_cons_of_mem f hg) sf hm hig)

theorem MigState_set_dirExists_eq (s : MigState) (h : s.dirExists = true) :
    { s with dirExists := true } = s := by
  cases s
  simp_all

/-! ## C4: what the existing-version index actually sees -/

/-- C4 (amended): in append mode the existing-version index is built from the
commits directly pointed to by the repository's hash references only — in the
single-branch model, exactly the branch tip.  A version token is in the index
iff the tip commit's message scans to it; ancestor commits reachable in
history contribute nothing (the counterexample exhibits a reachable commit
whose version is missing from the index). -/
theorem existing_version_index_tip_only (commits : List Commit) (v : String) :
    v ∈ buildExistingVersions commits ↔
      ∃ tip, commits.head? = some tip ∧
        scanCommitVersion tip.message = some v := by
  cases commits with
  | nil => simp [buildExistingVersions]
  | cons tip rest =>
    simp only [buildExistingVersions, List.head?_cons]
    cases h : scanCommitVersion tip.message with
    | none => simp [h]
    | some w =>
      simp only [List.mem_singleton, Option.some.injEq]
      constructor
      · rintro rfl; exact ⟨tip, rfl, h⟩
      · rintro ⟨t, ht, hs⟩
        cases Option.some.injEq .. ▸ ht
        rw [← ht] at hs
        rw [h] at hs
        exact (Option.some.injEq .. ▸ hs).symm

/-- C4 counterexample: a two-commit history whose tip carries version `"2"`
and whose (reachable) ancestor carries version `"1"`: the index contains only
`"2"`, so the ancestor's version is not in the set of already-applied
versions — the scan does not walk the full history. -/
theorem existing_version_index_misses_ancestor_cex :
    buildExistingVersions
        [⟨"Version 2: b (created: D)", "Dev", "d@e", 20⟩,
         ⟨"Version 1: a (created: D)", "Dev", "d@e", 10⟩] = ["2"] ∧
    (⟨"Version 1: a (created: D)", "Dev", "d@e", 10⟩ : Commit) ∈
      [(⟨"Version 2: b (created: D)", "Dev", "d@e", 20⟩ : Commit),
       ⟨"Version 1: a (created: D)", "Dev", "d@e", 10⟩] ∧
    scanCommitVersion "Version 1: a (created: D)" = some "1" ∧
    ("1" : String) ∉ (["2"] : List String) := by
  refine ⟨by decide, by decide, by decide, by decide⟩

/-! ## C5: non-append materialization is exact -/

theorem materialization_pathExists (wt : List WtEntry)
    (srcFiles : List SrcFile) (dirBase : String) (underHiddenHome : Bool)
    (h1 : systemDirs.contains dirBase = false) (h2 : underHiddenHome = false)
    (p : List String) :
    pathExists (copyFilesAndTrack srcFiles
        (clearDirectory dirBase underHiddenHome wt) false).worktree p = true ↔
      ((∃ sf ∈ srcFiles, srcFileIgnored sf = false ∧ sf.path = p) ∨
        (∃ e ∈ wt, e.path = p ∧ protectedEntry e = true)) := by
  subst h2
  unfold copyFilesAndTrack
  rw [copy_foldl_pathExists]
  dsimp only
  rw [clearDirectory_pathExists dirBase wt p h1]

theorem processFolder_nonappend_worktree (config : Config) (env : MigEnv)
    (existing : List String) (st : MigState) (folder : FolderInfo)
    (hA : config.Append = false) :
    (processFolder config env existing st folder).worktree =
      (copyFilesAndTrack (env.fs folder.Path)
        (clearDirectory (baseName config.TargetDir) env.targetUnderHiddenHome
          st.worktree) false).worktree := by
  rw [processFolder]
  simp only [hA, Bool.false_and, Bool.false_eq_true, if_false, Bool.not_false,
    if_true]
  split
  · rfl
  · rfl

/-- C5: outside append mode, after `processFolder` materializes a folder
(recursive clear of the target followed by the filtered copy; staging and
committing do not change the file set), the working tree's file set is
exactly the folder's filtered file set plus those pre-existing entries the
protection rules keep (symbolic links and entries with a protected-name
component, such as the `.git` repository metadata).  The hypotheses state
that the target directory itself is not named like a protected directory and
is not a hidden directory under the user's home — otherwise `clearDirectory`
refuses to clear at all. -/
theorem nonappend_materialization_exact (config : Config) (env : MigEnv)
    (existing : List String) (st : MigState) (folder : FolderInfo)
    (hA : config.Append = false)
    (h1 : systemDirs.contains (baseName config.TargetDir) = false)
    (h2 : env.targetUnderHiddenHome = false) (p : List String) :
    pathExists (processFolder config env existing st folder).worktree p = true
      ↔
      ((∃ sf ∈ env.fs folder.Path, srcFileIgnored sf = false ∧ sf.path = p) ∨
        (∃ e ∈ st.worktree, e.path = p ∧ protectedEntry e = true)) := by
  rw [processFolder_nonappend_worktree config env existing st folder hA]
  exact materialization_pathExists st.worktree (env.fs folder.Path)
    (baseName config.TargetDir) env.targetUnderHiddenHome h1 h2 p

/-- C5 witness: at a concrete non-append step, a stale unprotected file is
gone while the copied file is present. -/
theorem nonappend_materialization_exact_witness :
    pathExists
      (processFolder { TargetDir := "repo", Author := "Dev", Email := "d@e" }
        ⟨fun _ => [⟨["new.py"], "n"⟩], fun _ => "D", none, false⟩ []
        ⟨true, true,
          [⟨["old.py"], "o", false⟩, ⟨[".git", "cfg"], "g", false⟩], []⟩
        ⟨"src/v1", "1", 0⟩).worktree ["new.py"] = true :=
  (nonappend_materialization_exact
      { TargetDir := "repo", Author := "Dev", Email := "d@e" }
      ⟨fun _ => [⟨["new.py"], "n"⟩], fun _ => "D", none, false⟩ []
      ⟨true, true,
        [⟨["old.py"], "o", false⟩, ⟨[".git", "cfg"], "g", false⟩], []⟩
      ⟨"src/v1", "1", 0⟩ rfl (by decide) rfl ["new.py"]).mpr
    (Or.inl ⟨⟨["new.py"], "n"⟩, by decide, by decide, rfl⟩)

/-! ## C6: append mode never deletes or overwrites -/

/-- C6: in append mode a successful `MigrateToGit` run never deletes and never
overwrites an existing working-tree entry: the clearing step is not invoked
and the copy skips every source file whose target path already exists, so the
final working tree is the initial one extended by entries at previously
non-existing paths only. -/
theorem append_preserves_existing_files (config : Config) (env : MigEnv)
    (folders : List FolderInfo) (st0 st1 : MigState)
    (hA : config.Append = true) (hD : config.DryRun = false)
    (h1 : MigrateToGit config env folders st0 = (st1, none)) :
    ∃ added, st1.worktree = st0.worktree ++ added ∧
      ∀ e ∈ added, pathExists st0.worktree e.path = false := by
  by_cases hR : st0.repoExists = true
  · have hrun : MigrateToGit config env folders st0 =
        (migrateLoop config env folders { st0 with dirExists := true }, none) := by
      simp [MigrateToGit, hA, hD, hR]
    rw [hrun] at h1
    injection h1 with h1a _
    subst h1a
    have hloop : migrateLoop config env folders { st0 with dirExists := true } =
        List.foldl
          (processFolder config env (buildExistingVersions st0.commits))
          { st0 with dirExists := true } folders := by
      rw [migrateLoop]
      simp [hA]
    rw [hloop]
    exact migrate_foldl_append_shape config env
      (buildExistingVersions st0.commits) folders hA { st0 with dirExists := true }
  · have hR0 : st0.repoExists = false := by simpa using hR
    rw [MigrateToGit] at h1
    simp [hA, hD, hR0] at h1

/-- A concrete append-mode configuration used by witnesses and
counterexamples. -/
def appendRunConfig : Config :=
  { TargetDir := "repo", Author := "Dev", Email := "d@e", Append := true }

/-- A one-folder source filesystem for the C6 witness. -/
def singleFolderEnv : MigEnv :=
  ⟨fun _ => [⟨["b.py"], "y"⟩], fun _ => "D", none, false⟩

/-- The C6 witness's initial state: repository present, one pre-existing
working-tree entry. -/
def singleFolderSt0 : MigState :=
  ⟨true, true, [⟨["a.py"], "x", false⟩], []⟩

/-- C6 witness: a concrete append run extends the working tree without
touching the pre-existing entry. -/
theorem append_preserves_existing_files_witness :
    ∃ added,
      (MigrateToGit appendRunConfig singleFolderEnv
          [⟨"src/b", "2", 5⟩] singleFolderSt0).1.worktree =
        singleFolderSt0.worktree ++ added ∧
      ∀ e ∈ added, pathExists singleFolderSt0.worktree e.path = false :=
  append_preserves_existing_files appendRunConfig singleFolderEnv
    [⟨"src/b", "2", 5⟩] singleFolderSt0
    (MigrateToGit appendRunConfig singleFolderEnv
      [⟨"src/b", "2", 5⟩] singleFolderSt0).1
    rfl rfl (by decide)

/-! ## C10: append without a repository fails before mutating anything -/

/-- C10: with `Append = true`, `DryRun = false` and no repository at the
target, `MigrateToGit` returns an error and the only state change is the
creation of the target directory: no repository is initialized, no working
tree entry is touched, no commit is created. -/
theorem append_without_repo_mutation_free (config : Config) (env : MigEnv)
    (folders : List FolderInfo) (st0 : MigState)
    (hA : config.Append = true) (hD : config.DryRun = false)
    (hR : st0.repoExists = false) :
    MigrateToGit config env folders st0 =
      ({ st0 with dirExists := true },
        some "append mode requested but no repository exists at target") := by
  simp [MigrateToGit, hA, hD, hR]

/-- C10 witness. -/
theorem append_without_repo_mutation_free_witness :
    MigrateToGit appendRunConfig singleFolderEnv
        [⟨"src/a", "1", 0⟩] ⟨false, false, [], []⟩ =
      (⟨true, false, [], []⟩,
        some "append mode requested but no repository exists at target") :=
  append_without_repo_mutation_free appendRunConfig singleFolderEnv
    [⟨"src/a", "1", 0⟩] ⟨false, false, [], []⟩ rfl rfl rfl

/-! ## C1: repeated append runs -/

/-- C1 (amended): consider an append-mode run none of whose folders' versions
are in the existing-version index built at its start (the typical first
population of a target).  After it succeeds, running `MigrateToGit` again with
the same folders against the resulting state is a no-op: the second run
succeeds and returns the state unchanged — every folder is either skipped via
the index or its incremental copy finds every file already present, so zero
files are copied and it is skipped before committing.  (Without the proviso
the property fails: the index sees only branch-tip commits, and the
counterexample shows a second run that creates a new commit.) -/
theorem migrate_append_second_run_fixpoint (config : Config) (env : MigEnv)
    (folders : List FolderInfo) (st0 st1 : MigState)
    (hA : config.Append = true) (hD : config.DryRun = false)
    (hR : st0.repoExists = true)
    (hskip : ∀ f ∈ folders,
      (buildExistingVersions st0.commits).contains f.Version = false)
    (h1 : MigrateToGit config env folders st0 = (st1, none)) :
    MigrateToGit config env folders st1 = (st1, none) := by
  have hrun : MigrateToGit config env folders st0 =
      (migrateLoop config env folders { st0 with dirExists := true }, none) := by
    simp [MigrateToGit, hA, hD, hR]
  rw [hrun] at h1
  injection h1 with h1a _
  subst h1a
  have hloop : migrateLoop config env folders { st0 with dirExists := true } =
      List.foldl (processFolder config env (buildExistingVersions st0.commits))
        { st0 with dirExists := true } folders := by
    rw [migrateLoop]
    simp [hA]
  obtain ⟨hdir, hrepo⟩ := migrate_foldl_flags config env
    (buildExistingVersions st0.commits) folders { st0 with dirExists := true }
  rw [hloop]
  have hdir2 : (List.foldl
      (processFolder config env (buildExistingVersions st0.commits))
      { st0 with dirExists := true } folders).dirExists = true := hdir
  have hrepo2 : (List.foldl
      (processFolder config env (buildExistingVersions st0.commits))
      { st0 with dirExists := true } folders).repoExists = true := by
    rw [hrepo]; exact hR
  have hpresent : ∀ f ∈ folders, ∀ sf ∈ env.fs f.Path,
      srcFileIgnored sf = false →
      pathExists (List.foldl
        (processFolder config env (buildExistingVersions st0.commits))
        { st0 with dirExists := true } folders).worktree sf.path = true :=
    migrate_foldl_ensures config env (buildExistingVersions st0.commits)
      folders hA hskip { st0 with dirExists := true }
  have h2 : MigrateToGit config env folders
      (List.foldl (processFolder config env (buildExistingVersions st0.commits))
        { st0 with dirExists := true } folders) =
      (migrateLoop config env folders
        { (List.foldl (processFolder config env
            (buildExistingVersions st0.commits))
          { st0 with dirExists := true } folders) with dirExists := true },
        none) := by
    simp [MigrateToGit, hA, hD, hrepo2]
  rw [h2, MigState_set_dirExists_eq _ hdir2]
  have hloop2 : migrateLoop config env folders
      (List.foldl (processFolder config env (buildExistingVersions st0.commits))
        { st0 with dirExists := true } folders) =
      List.foldl (processFolder config env
        (buildExistingVersions (List.foldl (processFolder config env
          (buildExistingVersions st0.commits))
          { st0 with dirExists := true } folders).commits))
        (List.foldl (processFolder config env
          (buildExistingVersions st0.commits))
          { st0 with dirExists := true } folders) folders := by
    rw [migrateLoop]
    simp [hA]
  rw [hloop2,
    migrate_foldl_fixpoint config env _ folders hA _ hpresent]

/-- The two-folder source filesystem of the C1 scenario: two folders with
disjoint file sets. -/
def rerunEnv : MigEnv :=
  ⟨fun p => if p == "src/f1" then [⟨["f1.py"], "A"⟩]
    else if p == "src/f2" then [⟨["f2.py"], "B"⟩] else [],
   fun _ => "D", none, false⟩

/-- The folders of the C1 scenario, versions `"1"` and `"2"`. -/
def rerunFolders : List FolderInfo := [⟨"src/f1", "1", 10⟩, ⟨"src/f2", "2", 20⟩]

/-- Initial state of the C1 counterexample: the branch tip already carries a
`"Version 1:"` commit, so the first run index-skips the version-1 folder
without its files ever reaching the working tree. -/
def rerunSt0 : MigState :=
  ⟨true, true, [], [⟨"Version 1: a (created: D)", "Dev", "d@e", 0⟩]⟩

/-- C1 counterexample: running `MigrateToGit` a second time with
`append = true`, with the same source folders, against the state produced by
the first run, creates a new commit.  The first run skips version `"1"` via
the index (the tip carries it) and commits version `"2"`; the second run's
index sees only the new tip (`"2"`), so the version-1 folder is re-processed,
its file is still missing, and a duplicate `"Version 1:"` commit is created.
-/
theorem migrate_append_second_run_new_commit_cex :
    (MigrateToGit appendRunConfig rerunEnv rerunFolders rerunSt0).2 = none ∧
    (MigrateToGit appendRunConfig rerunEnv rerunFolders
        (MigrateToGit appendRunConfig rerunEnv rerunFolders rerunSt0).1).1.commits.length
      = (MigrateToGit appendRunConfig rerunEnv rerunFolders
          rerunSt0).1.commits.length + 1 := by
  refine ⟨by decide, by decide⟩

/-- The state produced by the first run of the C1 witness scenario
(append run of `rerunFolders` against a repository with empty history). -/
def rerunSt1 : MigState :=
  ⟨true, true,
   [⟨["f1.py"], "A", false⟩, ⟨["f2.py"], "B", false⟩],
   [⟨"Version 2: f2 (created: D)", "Dev", "d@e", 20⟩,
    ⟨"Version 1: f1 (created: D)", "Dev", "d@e", 10⟩]⟩

/-- C1 witness: the amended idempotence at a concrete run whose first pass
index-skips nothing. -/
theorem migrate_append_second_run_fixpoint_witness :
    MigrateToGit appendRunConfig rerunEnv rerunFolders rerunSt1 =
      (rerunSt1, none) :=
  migrate_append_second_run_fixpoint appendRunConfig rerunEnv rerunFolders
    ⟨true, true, [], []⟩ rerunSt1 rfl rfl rfl (by decide) (by decide)

/-! ## C3: the index is fixed at the start of the run -/

theorem processFolder_commits (config : Config) (env : MigEnv)
    (existing : List String) (st : MigState) (folder : FolderInfo)
    (hA : config.Append = true) :
    (processFolder config env existing st folder).commits = st.commits ∨
    (existing.contains folder.Version = false ∧
      (processFolder config env existing st folder).commits =
        ⟨resolveMessage config folder
            (copyFilesAndTrack (env.fs folder.Path) st.worktree true).fileCount
            (resolveAuthor config folder.Version env.authorsContent).1
            env.formatDate,
          (resolveAuthor config folder.Version env.authorsContent).1,
          (resolveAuthor config folder.Version env.authorsContent).2,
          folder.CreationTime⟩ :: st.commits) := by
  by_cases hc : existing.contains folder.Version = true
  · left
    rw [processFolder_skip config env existing st folder hA hc]
  · have hc0 : existing.contains folder.Version = false := by simpa using hc
    have hc2 : folder.Version ∉ existing := by simpa using hc0
    by_cases hz :
        (copyFilesAndTrack (env.fs folder.Path) st.worktree true).fileCount = 0
    · left
      rw [processFolder]
      simp [hA, hc2, hz]
    · right
      refine ⟨hc0, ?_⟩
      rw [processFolder]
      simp [hA, hc2, hz]

theorem migrate_foldl_commits_new (config : Config) (env : MigEnv)
    (existing : List String) (folders : List FolderInfo)
    (hA : config.Append = true) :
    ∀ st : MigState, ∃ newC,
      (List.foldl (processFolder config env existing) st folders).commits =
        newC ++ st.commits ∧
      ∀ c ∈ newC, ∃ f ∈ folders,
        existing.contains f.Version = false ∧
        c.whenTime = f.CreationTime ∧
        c.authorName = (resolveAuthor config f.Version env.authorsContent).1 ∧
        c.authorEmail = (resolveAuthor config f.Version env.authorsContent).2 := by
  induction folders with
  | nil => exact fun st => ⟨[], by simp, by simp⟩
  | cons f fs ih =>
    intro st
    rw [List.foldl_cons]
    obtain ⟨newC, hcm, hprop⟩ := ih (processFolder config env existing st f)
    rcases processFolder_commits config env existing st f hA with hsame | ⟨hc0, hcons⟩
    · refine ⟨newC, by rw [hcm, hsame], ?_⟩
      intro c hcmem
      obtain ⟨g, hg, hgp⟩ := hprop c hcmem
      exact ⟨g, List.mem_cons_of_mem f hg, hgp⟩
    · refine ⟨newC ++ [⟨resolveMessage config f
          (copyFilesAndTrack (env.fs f.Path) st.worktree true).fileCount
          (resolveAuthor config f.Version env.authorsContent).1 env.formatDate,
        (resolveAuthor config f.Version env.authorsContent).1,
        (resolveAuthor config f.Version env.authorsContent).2,
        f.CreationTime⟩], ?_, ?_⟩
      · rw [hcm, hcons, List.append_assoc]
        rfl
      · intro c hcmem
        rcases List.mem_append.mp hcmem with hin | hin
        · obtain ⟨g, hg, hgp⟩ := hprop c hin
          exact ⟨g, List.mem_cons_of_mem f hg, hgp⟩
        · rcases List.mem_singleton.mp hin with rfl
          exact ⟨f, List.mem_cons_self f fs, hc0, rfl, rfl, rfl⟩

/-- C3 (amended): in append mode the existing-version index is built once,
from the repository state at the start of the run, and never updated during
the run.  Every commit the run creates belongs to a folder whose version was
*not* in that start-of-run index — so a version listed in the index is never
recommitted.  The original claim's stronger parenthetical (covering commits
created earlier in the same run for a duplicate version token) is false: the
counterexample shows a run that commits the same version twice. -/
theorem append_index_version_never_recommitted (config : Config)
    (env : MigEnv) (folders : List FolderInfo) (st : MigState)
    (hA : config.Append = true) :
    ∃ newC, (migrateLoop config env folders st).commits = newC ++ st.commits ∧
      ∀ c ∈ newC, ∃ f ∈ folders,
        (buildExistingVersions st.commits).contains f.Version = false ∧
        c.whenTime = f.CreationTime ∧
        c.authorName = (resolveAuthor config f.Version env.authorsContent).1 ∧
        c.authorEmail = (resolveAuthor config f.Version env.authorsContent).2 := by
  have hloop : migrateLoop config env folders st =
      List.foldl (processFolder config env (buildExistingVersions st.commits))
        st folders := by
    rw [migrateLoop]
    simp [hA]
  rw [hloop]
  exact migrate_foldl_commits_new config env
    (buildExistingVersions st.commits) folders hA st

/-- The source filesystem of the C3 counterexample: two folders carrying the
same version token, the second with one extra file. -/
def dupRunEnv : MigEnv :=
  ⟨fun p => if p == "src/a" then [⟨["a.py"], "x"⟩]
    else if p == "src/b" then [⟨["a.py"], "x"⟩, ⟨["b.py"], "y"⟩] else [],
   fun _ => "D", none, false⟩

/-- C3 counterexample: an append run over two folders that both carry version
`"1"`, against a repository with empty history.  The first folder is
committed; when the second folder is reached, version `"1"` is already
represented by that fresh commit's message, yet the second folder is
committed too (the index was built before the loop and is never updated):
the run ends with two `"Version 1:"` commits. -/
theorem append_same_run_duplicate_version_cex :
    ((MigrateToGit appendRunConfig dupRunEnv
        [⟨"src/a", "1", 0⟩, ⟨"src/b", "1", 0⟩]
        ⟨true, true, [], []⟩).1.commits.map
      (fun c => scanCommitVersion c.message)) = [some "1", some "1"] := by
  decide

/-- C3 witness: the amended statement at a concrete run (one indexed folder,
one new folder). -/
theorem append_index_version_never_recommitted_witness :
    ∃ newC, (migrateLoop appendRunConfig rerunEnv rerunFolders
        rerunSt0).commits = newC ++ rerunSt0.commits ∧
      ∀ c ∈ newC, ∃ f ∈ rerunFolders,
        (buildExistingVersions rerunSt0.commits).contains f.Version = false ∧
        c.whenTime = f.CreationTime ∧
        c.authorName =
          (resolveAuthor appendRunConfig f.Version rerunEnv.authorsContent).1 ∧
        c.authorEmail =
          (resolveAuthor appendRunConfig f.Version rerunEnv.authorsContent).2 :=
  append_index_version_never_recommitted appendRunConfig rerunEnv
    rerunFolders rerunSt0 rfl

/-! ## C7: the timestamp heuristic always succeeds and returns a median -/

theorem collectTimes_length_le (files : List WalkFile) :
    ∀ n : Nat, (collectTimes files n).length ≤ 2 * (500 - n) := by
  induction files with
  | nil => intro n; simp [collectTimes]
  | cons f rest ih =>
    intro n
    by_cases h1 : f.dirs.any isSkippedWalkDir = true
    · simpa [collectTimes, h1] using ih n
    · have h1f : f.dirs.any isSkippedWalkDir = false := by simpa using h1
      by_cases h2 : 500 ≤ n
      · simpa [collectTimes, h1f, h2] using ih n
      · by_cases h3 : isServiceFile f.base = true
        · simpa [collectTimes, h1f, h2, h3] using ih n
        · have h3f : isServiceFile f.base = false := by simpa using h3
          have hrec := ih (n + 1)
          have hn : n < 500 := Nat.lt_of_not_le h2
          by_cases h4 : isKeyFile f.base = true
          · simp [collectTimes, h1f, h2, h3f, h4]
            omega
          · have h4f : isKeyFile f.base = false := by simpa using h4
            simp [collectTimes, h1f, h2, h3f, h4f]
            omega

theorem sorted_median_counts (l : List Int) (hne : l ≠ []) :
    (List.insertionSort (· ≤ ·) l).getD (l.length / 2) 0 ∈ l ∧
    l.length ≤ 2 * l.countP (fun x =>
      decide (x ≤ (List.insertionSort (· ≤ ·) l).getD (l.length / 2) 0)) ∧
    l.length ≤ 2 * l.countP (fun x =>
      decide ((List.insertionSort (· ≤ ·) l).getD (l.length / 2) 0 ≤ x)) := by
  have hperm : (List.insertionSort (· ≤ ·) l).Perm l :=
    List.perm_insertionSort _ l
  set s := List.insertionSort (· ≤ ·) l with hs
  have hlen : s.length = l.length := hperm.length_eq
  have hpos : 0 < l.length := List.length_pos.mpr hne
  have hm : l.length / 2 < s.length := by
    rw [hlen]
    exact Nat.div_lt_self hpos (by norm_num)
  set m := l.length / 2 with hmdef
  have hget : s.getD m 0 = s[m] := List.getD_eq_getElem s 0 hm
  have hsorted : List.Sorted (· ≤ ·) s := List.sorted_insertionSort _ l
  have hmemS : s.getD m 0 ∈ s := by rw [hget]; exact List.getElem_mem hm
  have hdropm : s.drop m = s[m] :: s.drop (m + 1) :=
    List.drop_eq_getElem_cons hm
  have htd : s.take m ++ s.drop m = s := List.take_append_drop m s
  have hpair : List.Pairwise (· ≤ ·) (s.take m ++ s.drop m) := by
    rw [htd]; exact hsorted
  have hsplit := (List.pairwise_append.mp hpair).2.2
  have hr_in_drop : s.getD m 0 ∈ s.drop m := by
    rw [hdropm, hget]
    exact List.mem_cons_self _ _
  have htake_le : ∀ x ∈ s.take m, x ≤ s.getD m 0 :=
    fun x hx => hsplit x hx _ hr_in_drop
  have hA : ∀ x ∈ s.take (m + 1), x ≤ s.getD m 0 := by
    intro x hx
    rw [List.take_succ] at hx
    rcases List.mem_append.mp hx with h | h
    · exact htake_le x h
    · rw [List.getElem?_eq_getElem hm] at h
      simp only [Option.toList_some, List.mem_singleton] at h
      subst h
      rw [hget]
  have hsd : List.Sorted (· ≤ ·) (s.drop m) :=
    List.Pairwise.sublist (List.drop_sublist m s) hsorted
  have hB : ∀ x ∈ s.drop m, s.getD m 0 ≤ x := by
    rw [hdropm] at hsd ⊢
    intro x hx
    rcases List.mem_cons.mp hx with rfl | hx2
    · rw [hget]
    · rw [hget]
      exact (List.sorted_cons.mp hsd).1 x hx2
  have hcountA : m + 1 ≤ s.countP (fun x => decide (x ≤ s.getD m 0)) := by
    have h1 : s.countP (fun x => decide (x ≤ s.getD m 0)) =
        (s.take (m + 1)).countP (fun x => decide (x ≤ s.getD m 0)) +
        (s.drop (m + 1)).countP (fun x => decide (x ≤ s.getD m 0)) := by
      rw [← List.countP_append, List.take_append_drop]
    have h2 : (s.take (m + 1)).countP (fun x => decide (x ≤ s.getD m 0)) =
        (s.take (m + 1)).length :=
      List.countP_eq_length.mpr (fun a ha => by
        simpa using hA a ha)
    have h3 : (s.take (m + 1)).length = m + 1 := by
      rw [List.length_take]
      exact Nat.min_eq_left hm
    omega
  have hcountB : s.length - m ≤ s.countP (fun x => decide (s.getD m 0 ≤ x)) := by
    have h1 : s.countP (fun x => decide (s.getD m 0 ≤ x)) =
        (s.take m).countP (fun x => decide (s.getD m 0 ≤ x)) +
        (s.drop m).countP (fun x => decide (s.getD m 0 ≤ x)) := by
      rw [← List.countP_append, List.take_append_drop]
    have h2 : (s.drop m).countP (fun x => decide (s.getD m 0 ≤ x)) =
        (s.drop m).length :=
      List.countP_eq_length.mpr (fun a ha => by
        simpa using hB a ha)
    have h3 : (s.drop m).length = s.length - m := List.length_drop m s
    omega
  have hdiv := Nat.div_add_mod l.length 2
  have hmod : l.length % 2 < 2 := Nat.mod_lt _ (by norm_num)
  refine ⟨hperm.mem_iff.mp hmemS, ?_, ?_⟩
  · rw [← hperm.countP_eq]
    omega
  · rw [← hperm.countP_eq]
    omega

/-- C7: the timestamp-inference heuristic is total and never propagates an
error: it returns the current time whenever the walk reported an error or no
timestamp was collected, and otherwise returns a median of the collected
timestamp multiset (an element of the multiset with at least half the
multiset on each side), where the multiset holds each non-service file's
modification time — twice for key files — with at most 500 files processed
(hence at most 1000 entries). -/
theorem creation_time_median_spec (files : List WalkFile) (walkFailed : Bool)
    (now : Int) :
    ((walkFailed = true ∨ collectTimes files 0 = []) →
      getFolderCreationTime files walkFailed now = now) ∧
    (collectTimes files 0).length ≤ 1000 ∧
    (walkFailed = false → collectTimes files 0 ≠ [] →
      (getFolderCreationTime files walkFailed now ∈ collectTimes files 0 ∧
        (collectTimes files 0).length ≤
          2 * (collectTimes files 0).countP
            (fun x => decide (x ≤ getFolderCreationTime files walkFailed now)) ∧
        (collectTimes files 0).length ≤
          2 * (collectTimes files 0).countP
            (fun x =>
              decide (getFolderCreationTime files walkFailed now ≤ x)))) := by
  refine ⟨?_, ?_, ?_⟩
  · rintro (hw | hempty)
    · simp [getFolderCreationTime, hw]
    · simp [getFolderCreationTime, hempty]
  · simpa using collectTimes_length_le files 0
  · intro hw hne
    have hE : (collectTimes files 0).isEmpty = false := by
      simpa [List.isEmpty_iff] using hne
    have hval : getFolderCreationTime files walkFailed now =
        (List.insertionSort (· ≤ ·) (collectTimes files 0)).getD
          ((collectTimes files 0).length / 2) 0 := by
      rw [getFolderCreationTime]
      simp [hw, hE]
    rw [hval]
    exact sorted_median_counts (collectTimes files 0) hne

/-- C7 witness: a concrete folder whose key file weights the median. -/
theorem creation_time_median_spec_witness :
    getFolderCreationTime
        [⟨[], "a.txt", 5⟩, ⟨[], "main.py", 1⟩, ⟨[], "b.txt", 9⟩] false 99 ∈
      collectTimes [⟨[], "a.txt", 5⟩, ⟨[], "main.py", 1⟩, ⟨[], "b.txt", 9⟩] 0 :=
  ((creation_time_median_spec
      [⟨[], "a.txt", 5⟩, ⟨[], "main.py", 1⟩, ⟨[], "b.txt", 9⟩] false 99).2.2
    rfl (by decide)).1

/-! ## C9: discovery is sorted and fails exactly on empty -/

/-- C9: whenever discovery succeeds, the returned folder list is sorted
non-decreasing by creation time, and discovery returns the error exactly when
the set of discovered folders is empty.  (Pattern-compilation and glob errors
happen before this loop, in the regexp/filepath libraries outside the
embedding.) -/
theorem discovery_sorted_and_error_iff_empty (extract : String → String)
    (now : Int) (globMatches : List Candidate) :
    (∀ res, FindVersionedFolders extract now globMatches = some res →
      List.Sorted folderLE res) ∧
    (FindVersionedFolders extract now globMatches = none ↔
      discoveredFolders extract now globMatches = []) := by
  have hperm : (List.insertionSort folderLE
      (discoveredFolders extract now globMatches)).Perm
      (discoveredFolders extract now globMatches) :=
    List.perm_insertionSort _ _
  constructor
  · intro res hres
    rw [FindVersionedFolders] at hres
    by_cases hE : (List.insertionSort folderLE
        (discoveredFolders extract now globMatches)).isEmpty = true
    · rw [hE] at hres
      simp at hres
    · have hE0 : (List.insertionSort folderLE
          (discoveredFolders extract now globMatches)).isEmpty = false := by
        simpa using hE
      rw [hE0] at hres
      simp only [Bool.false_eq_true, if_false, Option.some.injEq] at hres
      rw [← hres]
      exact List.sorted_insertionSort folderLE _
  · constructor
    · intro hnone
      rw [FindVersionedFolders] at hnone
      by_cases hE : (List.insertionSort folderLE
          (discoveredFolders extract now globMatches)).isEmpty = true
      · have hsnil : List.insertionSort folderLE
            (discoveredFolders extract now globMatches) = [] :=
          List.isEmpty_iff.mp hE
        have hlen := hperm.length_eq
        rw [hsnil] at hlen
        exact List.length_eq_zero.mp hlen.symm
      · have hE0 : (List.insertionSort folderLE
            (discoveredFolders extract now globMatches)).isEmpty = false := by
          simpa using hE
        rw [hE0] at hnone
        simp at hnone
    · intro hdn
      rw [FindVersionedFolders]
      have hsnil : List.insertionSort folderLE
          (discoveredFolders extract now globMatches) = [] := by
        rw [hdn]
        rfl
      rw [hsnil]
      rfl

/-- C9 witness: two concrete candidates, discovered out of order, come back
sorted. -/
theorem discovery_sorted_and_error_iff_empty_witness :
    List.Sorted folderLE [⟨"src/a", "a", 3⟩, ⟨"src/b", "b", 5⟩] :=
  (discovery_sorted_and_error_iff_empty (fun s => s) 0
      [⟨"src/b", true, true, [⟨[], "y.txt", 5⟩]⟩,
       ⟨"src/a", true, true, [⟨[], "x.txt", 3⟩]⟩]).1
    [⟨"src/a", "a", 3⟩, ⟨"src/b", "b", 5⟩] (by decide)

/-! ## C8: author resolution -/

theorem lookupAuthorLines_eq_find (version : String) :
    ∀ lines : List (List Char),
      lookupAuthorLines version lines =
        match (lines.map trimList).find? (fun line =>
            !line.isEmpty && !(line.headD ' ' = '#') &&
            ((splitOnChar ':' line).length ≥ 3 &&
              String.mk ((splitOnChar ':' line).headD []) == version)) with
        | some line =>
          (String.mk ((splitOnChar ':' line).getD 1 []),
           String.mk ((splitOnChar ':' line).getD 2 []))
        | none => ("", "") := by
  intro lines
  induction lines with
  | nil => rfl
  | cons l rest ih =>
    rw [lookupAuthorLines]
    simp only [List.map_cons, List.find?_cons]
    by_cases h1 : ((trimList l).isEmpty || (trimList l).headD ' ' = '#') = true
    · have h1x : (trimList l).isEmpty = true ∨
          ((trimList l).headD ' ' = '#') := by simpa using h1
      have hP : (!(trimList l).isEmpty && !((trimList l).headD ' ' = '#') &&
          ((splitOnChar ':' (trimList l)).length ≥ 3 &&
            String.mk ((splitOnChar ':' (trimList l)).headD []) == version))
          = false := by
        rcases h1x with h | h
        · simp [h]
        · have hd : decide ((trimList l).headD ' ' = '#') = true :=
            decide_eq_true h
          simp [hd]
          exact fun _ hno _ => absurd (by simpa using h) hno
      rw [if_pos h1, hP]
      exact ih
    · have h1f : ((trimList l).isEmpty ||
          (trimList l).headD ' ' = '#') = false := by simpa using h1
      obtain ⟨hb, hh⟩ := Bool.or_eq_false_iff.mp h1f
      rw [if_neg h1]
      by_cases h2 : ((splitOnChar ':' (trimList l)).length ≥ 3 &&
          String.mk ((splitOnChar ':' (trimList l)).headD []) == version) = true
      · have hP : (!(trimList l).isEmpty && !((trimList l).headD ' ' = '#') &&
            ((splitOnChar ':' (trimList l)).length ≥ 3 &&
              String.mk ((splitOnChar ':' (trimList l)).headD []) == version))
            = true := by
          rw [hb, hh, h2]
          rfl
        rw [if_pos h2, hP]
      · have h2f : ((splitOnChar ':' (trimList l)).length ≥ 3 &&
            String.mk ((splitOnChar ':' (trimList l)).headD []) == version)
            = false := by simpa using h2
        have hP : (!(trimList l).isEmpty && !((trimList l).headD ' ' = '#') &&
            ((splitOnChar ':' (trimList l)).length ≥ 3 &&
              String.mk ((splitOnChar ':' (trimList l)).headD []) == version))
            = false := by
          rw [h2f]
          simp
        rw [if_neg h2, hP]
        exact ih

/-- C8 (amended): the resolved author is the pair from the first
authors-file line that (after trimming) is non-blank, not `#`-prefixed, has
at least 3 colon-separated fields and whose first field equals the folder's
version — provided both its name and email fields are nonempty; when no
authors file is configured, the file cannot be read, no line matches, or the
matched name or email field is empty, the resolution falls back to
`config.Author`/`config.Email`.  (The counterexample shows the original
claim fails when the first matching line carries an empty field.) -/
theorem author_resolution_spec (config : Config) (version : String)
    (content : Option String) :
    resolveAuthor config version content =
      if config.AuthorsFile = "" then (config.Author, config.Email)
      else
        match content with
        | none => (config.Author, config.Email)
        | some data =>
          match authorLineSpec version data with
          | some (name, email) =>
            if name ≠ "" ∧ email ≠ "" then (name, email)
            else (config.Author, config.Email)
          | none => (config.Author, config.Email) := by
  by_cases hAF : config.AuthorsFile = ""
  · simp [resolveAuthor, hAF]
  · rw [if_neg hAF]
    cases content with
    | none => simp [resolveAuthor, getAuthorInfo, hAF]
    | some data =>
      dsimp only
      rw [resolveAuthor, if_pos (by simpa using hAF)]
      rw [getAuthorInfo, if_neg (by simpa using hAF)]
      rw [lookupAuthorLines_eq_find]
      unfold authorLineSpec
      generalize ((splitOnChar '\n' data.data).map trimList).find?
          (fun line =>
            !line.isEmpty && !(line.headD ' ' = '#') &&
            ((splitOnChar ':' line).length ≥ 3 &&
              String.mk ((splitOnChar ':' line).headD []) == version)) = Fopt
      cases Fopt with
      | none => simp
      | some line =>
        by_cases hn : String.mk ((splitOnChar ':' line).getD 1 []) = ""
        · simp [hn]
        · by_cases he : String.mk ((splitOnChar ':' line).getD 2 []) = ""
          · simp [hn, he]
          · simp [hn, he]

/-- The configuration of the C8 counterexample: an authors file is
configured, with default author `Developer`. -/
def emptyEmailConfig : Config :=
  { TargetDir := "repo", Author := "Developer", Email := "dev@example.com",
    AuthorsFile := "authors.txt" }

/-- The environment of the C8 counterexample: the authors file's first (and
only) line maps version `1.0` to `Alice` with an *empty* email field. -/
def emptyEmailEnv : MigEnv :=
  ⟨fun _ => [⟨["m.py"], "x"⟩], fun _ => "D", some "1.0:Alice:", false⟩

/-- C8 counterexample: the first line matching version `"1.0"` yields the
pair `("Alice", "")`, but the commit's author identity is the fallback
`("Developer", "dev@example.com")` — the code also falls back when the
matched name or email field is empty, which the claim does not allow. -/
theorem author_resolution_empty_field_cex :
    authorLineSpec "1.0" "1.0:Alice:" = some ("Alice", "") ∧
    ((MigrateToGit emptyEmailConfig emptyEmailEnv [⟨"src/v1", "1.0", 7⟩]
        ⟨false, false, [], []⟩).1.commits.map
      (fun c => (c.authorName, c.authorEmail))) =
      [("Developer", "dev@example.com")] ∧
    (("Alice", "") : String × String) ≠ ("Developer", "dev@example.com") := by
  refine ⟨by decide, by decide, by decide⟩
